import Mathlib

/-!
Verification of the linux.do info-collector crawl pipeline.

We shallowly embed the data model and the operations of
`src/concurrent_crawler.py`, `src/database.py` and `src/analyzer.py`:

* strings are `List Char`, naive Beijing-time timestamps are `Int`
  (the code compares and stores timezone-naive Beijing datetimes, which
  are totally ordered; we only need their order structure),
* the three MySQL tables become finite maps `Nat → Option Row` keyed by
  the primary id,
* each `INSERT ... ON DUPLICATE KEY UPDATE` / `INSERT IGNORE` statement
  becomes an explicit store transformer, and `executemany` becomes a
  left fold over the batch,
* `datetime.fromisoformat` (external, fallible) is abstracted as a total
  `Except`-valued function.
-/

namespace InfoCollector

/-- Clamp an integer into `[lo, hi]`, as `min(max(x, lo), hi)` in
`_sanitize_topic_data` / `_sanitize_post_data`. -/
def clampInt (lo hi x : Int) : Int := min (max x lo) hi

/-! ## Data dictionaries (the Python dicts handed to the DB layer) -/

/-- A topic dict as produced by `_extract_topics_from_json` /
`_extract_topic_info_from_json`.  `lastActivityAt` is the naive
Beijing-time value stored under the key `last_activity_at`; the crawler's
change detection converts the temporary `_last_activity_at_utc` field with
the same expression (`astimezone(beijing).replace(tzinfo=None)`), so the
two coincide and we keep a single field. -/
structure TopicDict where
  id : Nat
  title : List Char
  url : List Char
  category : List Char
  authorId : Option Nat
  replyCount : Int
  viewCount : Int
  createdAt : Int
  lastActivityAt : Int
  tags : List Char
  crawledAt : Option Int
  deriving DecidableEq

/-- A user dict as produced by `_extract_users_from_json`. -/
structure UserDict where
  id : Nat
  username : List Char
  avatarUrl : Option (List Char)
  firstSeenAt : Option Int
  deriving DecidableEq

/-- A post dict as produced by `_extract_posts_from_json`. -/
structure PostDict where
  id : Nat
  topicId : Nat
  userId : Option Nat
  postNumber : Int
  replyToPostNumber : Option Int
  contentRaw : List Char
  likeCount : Int
  createdAt : Int
  deriving DecidableEq

/-! ## Stored rows -/

/-- A row of the `users` table. -/
structure UserRow where
  username : List Char
  avatarUrl : Option (List Char)
  firstSeenAt : Int
  deriving DecidableEq

/-- A row of the `topics` table. -/
structure TopicRow where
  title : List Char
  url : List Char
  category : List Char
  authorId : Option Nat
  replyCount : Int
  viewCount : Int
  createdAt : Int
  lastActivityAt : Int
  tags : List Char
  totalLikeCount : Int
  hotnessScore : ℚ
  crawledAt : Int
  deriving DecidableEq

/-- A row of the `posts` table (keyed by the primary id; the table's
second unique key `(topic_id, post_number)` identifies the same row for
the re-persist scenarios considered here). -/
structure PostRow where
  topicId : Nat
  userId : Option Nat
  postNumber : Int
  replyToPostNumber : Option Int
  contentRaw : List Char
  likeCount : Int
  createdAt : Int
  deriving DecidableEq

def UserStore := Nat → Option UserRow

def TopicStore := Nat → Option TopicRow

def PostStore := Nat → Option PostRow

/-! ## Sanitization (`_sanitize_user_data`, `_sanitize_topic_data`) -/

/-- `_sanitize_user_data`: truncate `username` to 50 and `avatar_url`
to 200 characters. -/
def sanitizeUserData (u : UserDict) : UserDict :=
  { u with
    username := u.username.take 50
    avatarUrl := u.avatarUrl.map (fun a => a.take 200) }

/-- `_sanitize_topic_data`: truncate `title`/`url`/`category`/`tags` and
clamp `reply_count` to `[0, 65535]`, `view_count` to `[0, 4294967295]`. -/
def sanitizeTopicData (t : TopicDict) : TopicDict :=
  { t with
    title := t.title.take 500
    url := t.url.take 200
    category := t.category.take 50
    tags := t.tags.take 500
    replyCount := clampInt 0 65535 t.replyCount
    viewCount := clampInt 0 4294967295 t.viewCount }

/-! ## Post content truncation (`_sanitize_post_data`) -/

/-- The content storage limit: `max_chars = 20000` in
`_sanitize_post_data`. -/
def contentMaxChars : Nat := 20000

/-- `pattern` occurs in `s` at index `i` (Python substring containment
at a fixed start position). -/
def occursAt (pat s : List Char) (i : Nat) : Bool :=
  pat.isPrefixOf (s.drop i)

/-- Python `str.rfind(pattern)`: the highest index at which `pattern`
occurs in `s` (`none` for Python's `-1`; all patterns used by the code
are non-empty). -/
def rfindList (pat s : List Char) : Option Nat :=
  ((List.range (s.length + 1)).filter (occursAt pat s)).getLast?

/-- The delimiter priority list of `_sanitize_post_data`:
`['\n\n', '\n', '。', '？', '！', '.', '?', '!']`. -/
def sentenceDelimiters : List (List Char) :=
  [['\n', '\n'], ['\n'], ['。'], ['？'], ['！'], ['.'], ['?'], ['!']]

/-- The `last_pos > max_chars * 0.8` guard (with `max_chars = 20000`
the threshold is the float `16000.0`, compared against an `int`). -/
def beyondEightyPercent (maxChars i : Nat) : Prop :=
  (maxChars : ℚ) * (4 / 5) < (i : ℚ)

instance (maxChars i : Nat) : Decidable (beyondEightyPercent maxChars i) := by
  unfold beyondEightyPercent; infer_instance

/-- The `for delimiter in [...]` loop: try each delimiter in priority
order; at the first one whose last occurrence lies beyond 80% of the
limit, cut right after that occurrence and stop. -/
def findCut (maxChars : Nat) (truncated : List Char) :
    List (List Char) → Option (List Char)
  | [] => none
  | d :: ds =>
      match rfindList d truncated with
      | some i =>
          if beyondEightyPercent maxChars i then
            some (truncated.take (i + d.length))
          else findCut maxChars truncated ds
      | none => findCut maxChars truncated ds

/-- The smart-truncation body: take the first `maxChars` characters,
prefer a sentence/paragraph cut, fall back to the last space, and keep
the raw prefix when neither lies beyond the 80% threshold. -/
def smartTruncate (maxChars : Nat) (content : List Char) : List Char :=
  let truncated := content.take maxChars
  match findCut maxChars truncated sentenceDelimiters with
  | some t => t
  | none =>
      match rfindList [' '] truncated with
      | some i =>
          if beyondEightyPercent maxChars i then truncated.take i
          else truncated
      | none => truncated

/-- The appended marker
`"\n\n...[[内容过长已被截断]]\n原始长度: {}字符".format(len(original_content))`. -/
def truncationMarker (originalLen : Nat) : List Char :=
  "\n\n...[[内容过长已被截断]]\n原始长度: ".toList
    ++ (Nat.repr originalLen).toList ++ "字符".toList

/-- The `content_raw` handling of `_sanitize_post_data`: content longer
than `max_chars` is smart-truncated and the marker appended; otherwise
it is kept unchanged. -/
def sanitizeContent (content : List Char) : List Char :=
  if contentMaxChars < content.length then
    smartTruncate contentMaxChars content ++ truncationMarker content.length
  else content

/-- `_sanitize_post_data`: sanitize the content and clamp
`post_number` / `reply_to_post_number` (only when truthy, i.e. present
and non-zero) / `like_count` to their storage ranges. -/
def sanitizePostData (p : PostDict) : PostDict :=
  { p with
    contentRaw := sanitizeContent p.contentRaw
    postNumber := clampInt 1 65535 p.postNumber
    replyToPostNumber := p.replyToPostNumber.map
      (fun n => if n = 0 then n else clampInt 1 65535 n)
    likeCount := clampInt 0 65535 p.likeCount }

/-! ## SQL statements as store transformers -/

/-- `INSERT IGNORE INTO users ...` (`insert_or_update_user` /
`batch_insert_users`): a fresh row is inserted with
`first_seen_at = sanitized.get('first_seen_at', beijing_now)`; a row
whose id already exists is left completely untouched. -/
def applyUserInsert (now : Int) (store : UserStore) (u : UserDict) : UserStore :=
  let s := sanitizeUserData u
  fun i =>
    if i = s.id then
      match store s.id with
      | none => some ⟨s.username, s.avatarUrl, s.firstSeenAt.getD now⟩
      | some r => some r
    else store i

/-- `batch_insert_users`: `executemany` of the `INSERT IGNORE`, with a
single `beijing_time` used for every missing `first_seen_at`. -/
def batchInsertUsers (now : Int) (store : UserStore) (us : List UserDict) : UserStore :=
  us.foldl (applyUserInsert now) store

/-- The row written for a topic dict by the listing upsert
(`batch_insert_or_update_topics`): a fresh insert takes every field from
the dict (derived columns start at their defaults `0`); on a duplicate
key, the `ON DUPLICATE KEY UPDATE` clause overwrites
`title, url, category, author_id, reply_count, view_count,
last_activity_at, tags, crawled_at` and leaves `created_at`,
`total_like_count` and `hotness_score` untouched. -/
def mergeTopicListing (now : Int) (t : TopicDict) (old : Option TopicRow) : TopicRow :=
  let s := sanitizeTopicData t
  let ca := s.crawledAt.getD now
  match old with
  | none =>
      ⟨s.title, s.url, s.category, s.authorId, s.replyCount, s.viewCount,
        s.createdAt, s.lastActivityAt, s.tags, 0, 0, ca⟩
  | some r =>
      { r with
        title := s.title
        url := s.url
        category := s.category
        authorId := s.authorId
        replyCount := s.replyCount
        viewCount := s.viewCount
        lastActivityAt := s.lastActivityAt
        tags := s.tags
        crawledAt := ca }

/-- One row of the listing upsert applied to the store. -/
def applyTopicListingUpsert (now : Int) (store : TopicStore) (t : TopicDict) : TopicStore :=
  fun i =>
    if i = (sanitizeTopicData t).id then
      some (mergeTopicListing now t (store (sanitizeTopicData t).id))
    else store i

/-- `batch_insert_or_update_topics`: `executemany` of the listing
upsert, with a single `beijing_time` for every missing `crawled_at`. -/
def batchInsertOrUpdateTopics (now : Int) (store : TopicStore) (ts : List TopicDict) : TopicStore :=
  ts.foldl (applyTopicListingUpsert now) store

/-- `insert_or_update_topic` (detail-crawl path): same insert, but its
`ON DUPLICATE KEY UPDATE` clause overwrites only
`title, category, reply_count, view_count, last_activity_at, tags,
crawled_at` (not `url` and not `author_id`). -/
def mergeTopicDetail (now : Int) (t : TopicDict) (old : Option TopicRow) : TopicRow :=
  let s := sanitizeTopicData t
  let ca := s.crawledAt.getD now
  match old with
  | none =>
      ⟨s.title, s.url, s.category, s.authorId, s.replyCount, s.viewCount,
        s.createdAt, s.lastActivityAt, s.tags, 0, 0, ca⟩
  | some r =>
      { r with
        title := s.title
        category := s.category
        replyCount := s.replyCount
        viewCount := s.viewCount
        lastActivityAt := s.lastActivityAt
        tags := s.tags
        crawledAt := ca }

/-- `insert_or_update_topic` applied to the store. -/
def applyTopicDetailUpsert (now : Int) (store : TopicStore) (t : TopicDict) : TopicStore :=
  fun i =>
    if i = (sanitizeTopicData t).id then
      some (mergeTopicDetail now t (store (sanitizeTopicData t).id))
    else store i

/-- The posts upsert (`insert_or_update_post` / `batch_insert_posts`):
a fresh row takes every field from the sanitized dict; on a duplicate
key only `content_raw` and `like_count` are overwritten. -/
def mergePost (p : PostDict) (old : Option PostRow) : PostRow :=
  let s := sanitizePostData p
  match old with
  | none =>
      ⟨s.topicId, s.userId, s.postNumber, s.replyToPostNumber,
        s.contentRaw, s.likeCount, s.createdAt⟩
  | some r =>
      { r with
        contentRaw := s.contentRaw
        likeCount := s.likeCount }

/-- One row of the posts upsert applied to the store. -/
def applyPostUpsert (store : PostStore) (p : PostDict) : PostStore :=
  fun i =>
    if i = (sanitizePostData p).id then
      some (mergePost p (store (sanitizePostData p).id))
    else store i

/-- `batch_insert_posts`: `executemany` of the posts upsert. -/
def batchInsertPosts (store : PostStore) (ps : List PostDict) : PostStore :=
  ps.foldl applyPostUpsert store

/-! ## Change detection (`crawl_all_topic_lists`) -/

/-- `get_topics_last_activity_batch` restricted to one id: the stored
`last_activity_at` for the id, or `None` when the topic is unknown. -/
def storedLastActivity (store : TopicStore) (i : Nat) : Option Int :=
  (store i).map (fun r => r.lastActivityAt)

/-- The per-topic decision of `crawl_all_topic_lists`: crawl when the id
is absent from the stored map, or when the freshly observed
last-activity timestamp is strictly greater than the stored one. -/
def shouldCrawl (dbLast : Option Int) (t : TopicDict) : Bool :=
  match dbLast with
  | none => true
  | some d => d < t.lastActivityAt

/-- The `topics_to_crawl` list built by `crawl_all_topic_lists`: the
URLs of the harvested topics that pass `shouldCrawl`, in harvest
order. -/
def selectTopicsToCrawl (dbLast : Nat → Option Int) (harvest : List TopicDict) :
    List (List Char) :=
  (harvest.filter (fun t => shouldCrawl (dbLast t.id) t)).map (fun t => t.url)

/-- The decision-and-persist tail of `crawl_all_topic_lists`: the stored
last-activity map is read first, the crawl candidates are selected
against it, and then ALL harvested topics are batch-upserted. -/
def crawlAllTopicLists (now : Int) (store : TopicStore) (harvest : List TopicDict) :
    List (List Char) × TopicStore :=
  (selectTopicsToCrawl (storedLastActivity store) harvest,
    batchInsertOrUpdateTopics now store harvest)

/-! ## Hotness scoring (`update_hotness_scores`) -/

def defaultViewWeight : ℚ := 1

def defaultReplyWeight : ℚ := 5

def defaultLikeWeight : ℚ := 3

def defaultTimeDecayHours : ℚ := 168

def defaultMaxScore : ℚ := 999999

/-- The SQL expression
`LEAST(max_score, GREATEST(0.1, (view*wv + reply*wr + like*wl) *
GREATEST(0.1, 1 - hours/decay)))` of `update_hotness_scores`. -/
def hotnessScore (wv wr wl decayH maxS v r l hrs : ℚ) : ℚ :=
  min maxS (max (1 / 10) ((v * wv + r * wr + l * wl) * max (1 / 10) (1 - hrs / decayH)))

/-- `update_hotness_scores` with the default weights that
`HotnessAnalyzer.update_hotness_scores` passes down: every stored row's
`hotness_score` is recomputed from its counts and the integer number of
hours between its `last_activity_at` and now
(`TIMESTAMPDIFF(HOUR, last_activity_at, NOW())`). -/
def updateHotnessScores (nowH : Int) (store : TopicStore) : TopicStore :=
  fun i =>
    (store i).map (fun r =>
      { r with
        hotnessScore :=
          hotnessScore defaultViewWeight defaultReplyWeight defaultLikeWeight
            defaultTimeDecayHours defaultMaxScore
            (r.viewCount : ℚ) (r.replyCount : ℚ) (r.totalLikeCount : ℚ)
            ((nowH - r.lastActivityAt : Int) : ℚ) })

/-! ## Content filter (`_is_meaningful_post`) -/

/-- Python `str.strip()` (no argument): drop leading and trailing
whitespace. -/
def pythonStrip (s : List Char) : List Char :=
  ((s.dropWhile Char.isWhitespace).reverse.dropWhile Char.isWhitespace).reverse

/-- Python `str.lower()` on the character level. -/
def toLowerList (s : List Char) : List Char := s.map Char.toLower

/-- The `meaningless_phrases` denylist of `_is_meaningful_post`. -/
def meaninglessPhrases : List (List Char) :=
  ["thanks".toList, "thank you".toList, "感谢分享".toList, "谢谢分享".toList,
    "学习了".toList, "支持".toList, "mark".toList, "+1".toList, "插眼".toList,
    "好人一生平安".toList]

/-- `_is_meaningful_post(content, min_length)`: reject empty or
whitespace-only content, stripped content shorter than `min_length`, and
content whose lowercased stripped form equals a denylist phrase. -/
def isMeaningfulPost (minLength : Nat) (content : List Char) : Bool :=
  if (pythonStrip content).isEmpty then false
  else if (pythonStrip content).length < minLength then false
  else if meaninglessPhrases.any
      (fun phrase => phrase = toLowerList (pythonStrip content)) then false
  else true

/-- The default `min_length = 15` of `_is_meaningful_post`. -/
def defaultMinLength : Nat := 15

/-! ## Timestamp parsing (`_parse_datetime`) -/

/-- Python `str.replace(c, rep)`: replace every occurrence of the
character `c`. -/
def replaceChar (c : Char) (rep : List Char) (s : List Char) : List Char :=
  s.foldr (fun x acc => if x = c then rep ++ acc else x :: acc) []

/-- The replacement `'+00:00'` substituted for `'Z'`. -/
def utcOffsetSuffix : List Char := "+00:00".toList

/-- `_parse_datetime`: over an abstract datetime type `DT`,
`datetime.fromisoformat` is an external fallible function modelled as
`fromIso : List Char → Except (List Char) DT` and `datetime.now(utc)` as
`nowUTC`.  Strings containing `'T'` are parsed after replacing `'Z'`
with `'+00:00'`; strings without `'T'`, and strings on which `fromIso`
fails (the `except` clause), yield `nowUTC`. -/
def parseDatetime {DT : Type} (fromIso : List Char → Except (List Char) DT)
    (nowUTC : DT) (timeStr : List Char) : DT :=
  if 'T' ∈ timeStr then
    match fromIso (replaceChar 'Z' utcOffsetSuffix timeStr) with
    | Except.ok d => d
    | Except.error _ => nowUTC
  else nowUTC

/-! ## Detail-crawl pagination (`_crawl_single_topic_detail`) -/

/-- `total_pages = (total_posts_count + posts_per_page - 1) //
posts_per_page`. -/
def totalPagesFor (postsCount perPage : Nat) : Nat :=
  (postsCount + perPage - 1) / perPage

/-- The extra page numbers fetched by `_crawl_single_topic_detail`:
when the first page's post stream is non-empty (`firstPageLen ≠ 0`) and
shorter than the reported `posts_count`, pages
`range(2, total_pages + 1)` are fetched sequentially; otherwise none. -/
def additionalPagesToFetch (postsCount firstPageLen : Nat) : List Nat :=
  if firstPageLen ≠ 0 ∧ firstPageLen < postsCount then
    List.range' 2 (totalPagesFor postsCount firstPageLen - 1)
  else []

/-! ## Basic facts about the sanitizers -/

@[simp]
lemma sanitizeUserData_id (u : UserDict) : (sanitizeUserData u).id = u.id := rfl

@[simp]
lemma sanitizeTopicData_id (t : TopicDict) : (sanitizeTopicData t).id = t.id := rfl

@[simp]
lemma sanitizePostData_id (p : PostDict) : (sanitizePostData p).id = p.id := rfl

lemma sanitizeTopicData_lastActivityAt (t : TopicDict) :
    (sanitizeTopicData t).lastActivityAt = t.lastActivityAt := rfl

lemma sanitizeTopicData_createdAt (t : TopicDict) :
    (sanitizeTopicData t).createdAt = t.createdAt := rfl

/-! ## Facts about the user insert (`INSERT IGNORE`) -/

/-- An `INSERT IGNORE` never changes an existing row. -/
lemma applyUserInsert_preserves (now : Int) (store : UserStore) (u : UserDict)
    (i : Nat) (r : UserRow) (h : store i = some r) :
    applyUserInsert now store u i = some r := by
  unfold applyUserInsert
  by_cases hi : i = (sanitizeUserData u).id
  · rw [if_pos hi, ← hi, h]
  · rw [if_neg hi]; exact h

/-- A batch of `INSERT IGNORE`s never changes an existing row. -/
lemma batchInsertUsers_preserves (now : Int) (us : List UserDict) :
    ∀ (store : UserStore) (i : Nat) (r : UserRow), store i = some r →
      batchInsertUsers now store us i = some r := by
  induction us with
  | nil => intro store i r h; exact h
  | cons u rest ih =>
      intro store i r h
      exact ih (applyUserInsert now store u) i r (applyUserInsert_preserves now store u i r h)

/-- After an `INSERT IGNORE` for `u`, a row with `u`'s id exists. -/
lemma applyUserInsert_present (now : Int) (store : UserStore) (u : UserDict) :
    ∃ r, applyUserInsert now store u u.id = some r := by
  unfold applyUserInsert
  simp only [sanitizeUserData_id, eq_self_iff_true, if_true]
  cases hs : store u.id with
  | none => exact ⟨_, rfl⟩
  | some r => exact ⟨r, rfl⟩

/-- After a user batch, every batched id has a row. -/
lemma batchInsertUsers_present (now : Int) (us : List UserDict) :
    ∀ (store : UserStore), ∀ u ∈ us, ∃ r, batchInsertUsers now store us u.id = some r := by
  induction us with
  | nil => intro store u hu; exact absurd hu (List.not_mem_nil u)
  | cons u0 rest ih =>
      intro store u hu
      rcases List.mem_cons.mp hu with rfl | hu'
      · obtain ⟨r, hr⟩ := applyUserInsert_present now store u
        exact ⟨r, batchInsertUsers_preserves now rest _ _ r hr⟩
      · exact ih (applyUserInsert now store u0) u hu'

/-- A user batch over a store that already has every batched id is a
no-op. -/
lemma batchInsertUsers_fixed (now : Int) (us : List UserDict) :
    ∀ (store : UserStore), (∀ u ∈ us, ∃ r, store u.id = some r) →
      batchInsertUsers now store us = store := by
  induction us with
  | nil => intro store _; rfl
  | cons u rest ih =>
      intro store h
      have h0 : applyUserInsert now store u = store := by
        funext i
        by_cases hi : i = u.id
        · subst hi
          obtain ⟨r, hr⟩ := h u (List.mem_cons_self u rest)
          rw [applyUserInsert_preserves now store u u.id r hr, hr]
        · unfold applyUserInsert
          simp only [sanitizeUserData_id]
          rw [if_neg hi]
      show batchInsertUsers now (applyUserInsert now store u) rest = store
      rw [h0]
      exact ih store (fun u' hu' => h u' (List.mem_cons_of_mem u hu'))

/-! ## Facts about the topic listing upsert -/

/-- Re-merging a dict into its own merge result changes nothing. -/
lemma mergeTopicListing_self (now : Int) (t : TopicDict) (o : Option TopicRow) :
    mergeTopicListing now t (some (mergeTopicListing now t o)) = mergeTopicListing now t o := by
  cases o <;> rfl

lemma mergeTopicListing_lastActivityAt (now : Int) (t : TopicDict) (o : Option TopicRow) :
    (mergeTopicListing now t o).lastActivityAt = t.lastActivityAt := by
  cases o <;> rfl

lemma mergeTopicListing_createdAt (now : Int) (t : TopicDict) (r : TopicRow) :
    (mergeTopicListing now t (some r)).createdAt = r.createdAt := rfl

lemma applyTopicListingUpsert_at_id (now : Int) (store : TopicStore) (t : TopicDict) :
    applyTopicListingUpsert now store t t.id = some (mergeTopicListing now t (store t.id)) := by
  unfold applyTopicListingUpsert
  simp only [sanitizeTopicData_id, eq_self_iff_true, if_true]

lemma applyTopicListingUpsert_untouched (now : Int) (store : TopicStore) (t : TopicDict)
    (i : Nat) (h : i ≠ t.id) : applyTopicListingUpsert now store t i = store i := by
  unfold applyTopicListingUpsert
  rw [if_neg]
  exact h

/-- Ids not named by the batch are untouched. -/
lemma batchInsertOrUpdateTopics_untouched (now : Int) (ts : List TopicDict) :
    ∀ (store : TopicStore) (i : Nat), (∀ t ∈ ts, t.id ≠ i) →
      batchInsertOrUpdateTopics now store ts i = store i := by
  induction ts with
  | nil => intro store i _; rfl
  | cons t rest ih =>
      intro store i h
      show batchInsertOrUpdateTopics now (applyTopicListingUpsert now store t) rest i = store i
      rw [ih (applyTopicListingUpsert now store t) i (fun t' ht' => h t' (List.mem_cons_of_mem t ht'))]
      exact applyTopicListingUpsert_untouched now store t i
        (fun he => h t (List.mem_cons_self t rest) he.symm)

/-- The `last_activity_at` stored by a listing batch is either the
incoming stored value or the freshly observed value of some batch
entry for that id (the upsert is unconditional: no `GREATEST` guard). -/
lemma batchTopics_lastActivity_cases (now : Int) (ts : List TopicDict) :
    ∀ (store : TopicStore) (i : Nat) (r' : TopicRow),
      batchInsertOrUpdateTopics now store ts i = some r' →
      (∃ r, store i = some r ∧ r'.lastActivityAt = r.lastActivityAt) ∨
      (∃ t ∈ ts, t.id = i ∧ r'.lastActivityAt = t.lastActivityAt) := by
  induction ts with
  | nil => intro store i r' h; exact Or.inl ⟨r', h, rfl⟩
  | cons t rest ih =>
      intro store i r' h
      rcases ih (applyTopicListingUpsert now store t) i r' h with ⟨r, hr, he⟩ | ⟨t', ht', hid, he⟩
      · by_cases hi : i = t.id
        · subst hi
          rw [applyTopicListingUpsert_at_id] at hr
          cases hr
          exact Or.inr ⟨t, List.mem_cons_self t rest, rfl,
            he.trans (mergeTopicListing_lastActivityAt now t (store t.id))⟩
        · rw [applyTopicListingUpsert_untouched now store t i hi] at hr
          exact Or.inl ⟨r, hr, he⟩
      · exact Or.inr ⟨t', List.mem_cons_of_mem t ht', hid, he⟩

/-! ## Sample data for concrete instantiations -/

def emptyTopicStore : TopicStore := fun _ => none

def emptyUserStore : UserStore := fun _ => none

def emptyPostStore : PostStore := fun _ => none

/-- A listing sighting of topic 1 with observed `last_activity_at = 100`. -/
def topicSightingLate : TopicDict :=
  { id := 1, title := ['t'], url := ['u'], category := ['c'], authorId := none,
    replyCount := 0, viewCount := 0, createdAt := 0, lastActivityAt := 100,
    tags := [], crawledAt := some 0 }

/-- A later listing sighting of the same topic reporting the strictly
older `last_activity_at = 50`. -/
def topicSightingEarly : TopicDict := { topicSightingLate with lastActivityAt := 50 }

def storeAfterLateSighting : TopicStore :=
  batchInsertOrUpdateTopics 0 emptyTopicStore [topicSightingLate]

def lateRow : TopicRow := mergeTopicListing 0 topicSightingLate none

def lateRowAgain : TopicRow := mergeTopicListing 0 topicSightingLate (some lateRow)

def sampleNewTopic : TopicDict :=
  { id := 101, title := ['h'], url := ['h', '1', '0', '1'], category := ['9'],
    authorId := none, replyCount := 3, viewCount := 50, createdAt := 10,
    lastActivityAt := 20, tags := [], crawledAt := none }

def userFirstSighting : UserDict :=
  { id := 1, username := ['a', 'l', 'i', 'c', 'e'], avatarUrl := none, firstSeenAt := some 10 }

def userSecondSighting : UserDict :=
  { id := 1, username := ['b', 'o', 'b'], avatarUrl := some ['x'], firstSeenAt := some 20 }

def storeAfterFirstSighting : UserStore := batchInsertUsers 0 emptyUserStore [userFirstSighting]

/-! ## C1: the change-detection decision rule -/

/-- C1: for a harvested topic whose URL identifies it uniquely within
the harvest, `crawl_all_topic_lists` selects the topic's URL for detail
crawl if and only if the topic's id is absent from the stored
last-activity map, or its freshly observed last-activity timestamp is
strictly greater than the stored one; in particular a topic whose
observed timestamp is equal to or older than the stored value is never
selected. -/
theorem change_detector_selects_iff_new_or_newer (now : Int) (store : TopicStore)
    (harvest : List TopicDict) (t : TopicDict) (ht : t ∈ harvest)
    (hurl : ∀ t' ∈ harvest, t'.url = t.url → t' = t) :
    t.url ∈ (crawlAllTopicLists now store harvest).1 ↔
      (store t.id = none ∨
        ∃ r, store t.id = some r ∧ r.lastActivityAt < t.lastActivityAt) := by
  have hiff : shouldCrawl (storedLastActivity store t.id) t = true ↔
      (store t.id = none ∨
        ∃ r, store t.id = some r ∧ r.lastActivityAt < t.lastActivityAt) := by
    unfold shouldCrawl storedLastActivity
    cases hst : store t.id with
    | none => simp
    | some r => simp
  constructor
  · intro hmem
    simp only [crawlAllTopicLists, selectTopicsToCrawl] at hmem
    rcases List.mem_map.mp hmem with ⟨t', ht', hurl'⟩
    rcases List.mem_filter.mp ht' with ⟨ht'h, hcond⟩
    have he : t' = t := hurl t' ht'h hurl'
    subst he
    exact hiff.mp hcond
  · intro h
    simp only [crawlAllTopicLists, selectTopicsToCrawl]
    exact List.mem_map.mpr ⟨t, List.mem_filter.mpr ⟨ht, hiff.mpr h⟩, rfl⟩

theorem change_detector_selection_witness :
    sampleNewTopic.url ∈ (crawlAllTopicLists 0 emptyTopicStore [sampleNewTopic]).1 :=
  (change_detector_selects_iff_new_or_newer 0 emptyTopicStore [sampleNewTopic] sampleNewTopic
    (List.mem_singleton.mpr rfl)
    (fun t' ht' _ => List.mem_singleton.mp ht')).mpr (Or.inl rfl)

/-! ## C2: monotonicity of the stored `last_activity_at` -/

/-- C2 counterexample: the claim that no insert-or-update of a crawl
replaces a stored `last_activity_at` with a strictly older value is
false: the listing batch upsert overwrites the field unconditionally,
so sighting topic 1 (stored with `last_activity_at = 100`) with an
observed `last_activity_at = 50` regresses the stored value to 50. -/
theorem listing_upsert_regresses_lastActivity :
    storedLastActivity storeAfterLateSighting 1 = some 100 ∧
    storedLastActivity
      (batchInsertOrUpdateTopics 0 storeAfterLateSighting [topicSightingEarly]) 1 = some 50 ∧
    (50 : Int) < 100 := by
  refine ⟨rfl, rfl, by norm_num⟩

/-- C2 (amended): the listing batch upsert overwrites
`last_activity_at` with the freshly observed value unconditionally, so
the stored value is monotonically non-decreasing only provided every
batched sighting of the id carries a timestamp at least as new as the
stored one; under that proviso no batch replaces it with a strictly
older value. -/
theorem batch_upsert_lastActivity_monotone (now : Int) (store : TopicStore)
    (ts : List TopicDict) (i : Nat) (r r' : TopicRow)
    (hr : store i = some r)
    (hr' : batchInsertOrUpdateTopics now store ts i = some r')
    (hge : ∀ t ∈ ts, t.id = i → r.lastActivityAt ≤ t.lastActivityAt) :
    r.lastActivityAt ≤ r'.lastActivityAt := by
  rcases batchTopics_lastActivity_cases now ts store i r' hr' with ⟨r0, hr0, he⟩ | ⟨t, ht, hid, he⟩
  · rw [hr] at hr0
    rw [he, Option.some_inj.mp hr0]
  · rw [he]
    exact hge t ht hid

theorem batch_upsert_lastActivity_monotone_witness :
    lateRow.lastActivityAt ≤ lateRowAgain.lastActivityAt :=
  batch_upsert_lastActivity_monotone 0 storeAfterLateSighting [topicSightingLate] 1
    lateRow lateRowAgain rfl rfl
    (fun t htm _ => by rw [List.mem_singleton.mp htm]; exact le_refl _)

/-! ## C5: what happens when a stored user id is sighted again -/

/-- C5 counterexample: `batch_insert_users` uses `INSERT IGNORE`, so a
user id that is already stored is NOT updated in place: user 1 stored
with username `alice` keeps username `alice` (and its old avatar) after
being sighted again as `bob`, contradicting the claim that the stored
row receives the newly sighted values. -/
theorem user_resight_not_updated :
    ((batchInsertUsers 0 storeAfterFirstSighting [userSecondSighting]) 1).map
      UserRow.username = some ['a', 'l', 'i', 'c', 'e'] ∧
    userSecondSighting.username = ['b', 'o', 'b'] ∧
    (['a', 'l', 'i', 'c', 'e'] : List Char) ≠ ['b', 'o', 'b'] := by
  refine ⟨rfl, rfl, by decide⟩

/-- C5 (amended): persisting a sighting of a user id that is already
stored is ignored entirely (`INSERT IGNORE`): the whole stored row —
username and avatar_url included, not just `first_seen_at` — keeps its
first-sighting values, and only ids that are absent get a row
inserted. -/
theorem user_insert_ignores_resight (now : Int) (store : UserStore) (us : List UserDict) :
    (∀ i r, store i = some r → batchInsertUsers now store us i = some r) ∧
    (∀ u ∈ us, ∃ r, batchInsertUsers now store us u.id = some r) :=
  ⟨fun i r h => batchInsertUsers_preserves now us store i r h,
    fun u hu => batchInsertUsers_present now us store u hu⟩

theorem user_insert_ignores_resight_witness :
    batchInsertUsers 0 storeAfterFirstSighting [userSecondSighting] 1 =
      some ⟨['a', 'l', 'i', 'c', 'e'], none, 10⟩ :=
  (user_insert_ignores_resight 0 storeAfterFirstSighting [userSecondSighting]).1 1
    ⟨['a', 'l', 'i', 'c', 'e'], none, 10⟩ rfl

/-! ## Idempotence machinery for the topic and post upserts -/

lemma applyTopicListingUpsert_fixed (now : Int) (store store' : TopicStore) (t : TopicDict)
    (h : store' t.id = applyTopicListingUpsert now store t t.id) :
    applyTopicListingUpsert now store' t = store' := by
  funext i
  by_cases hi : i = t.id
  · subst hi
    rw [applyTopicListingUpsert_at_id]
    rw [applyTopicListingUpsert_at_id] at h
    rw [h, mergeTopicListing_self]
  · exact applyTopicListingUpsert_untouched now store' t i hi

lemma batchTopics_idem (now : Int) :
    ∀ (ts : List TopicDict), (ts.map TopicDict.id).Nodup →
      ∀ store, batchInsertOrUpdateTopics now (batchInsertOrUpdateTopics now store ts) ts =
        batchInsertOrUpdateTopics now store ts := by
  intro ts
  induction ts with
  | nil => intro _ store; rfl
  | cons t rest ih =>
      intro h store
      have hmap : (t.id :: rest.map TopicDict.id).Nodup := by simpa using h
      have hnotin : t.id ∉ rest.map TopicDict.id := (List.nodup_cons.mp hmap).1
      have hrest := (List.nodup_cons.mp hmap).2
      have hne : ∀ t' ∈ rest, t'.id ≠ t.id := by
        intro t' ht' he
        exact hnotin (he ▸ List.mem_map.mpr ⟨t', ht', rfl⟩)
      have hfix : batchInsertOrUpdateTopics now (applyTopicListingUpsert now store t) rest t.id =
          applyTopicListingUpsert now store t t.id :=
        batchInsertOrUpdateTopics_untouched now rest (applyTopicListingUpsert now store t) t.id hne
      show batchInsertOrUpdateTopics now
          (applyTopicListingUpsert now
            (batchInsertOrUpdateTopics now (applyTopicListingUpsert now store t) rest) t) rest =
        batchInsertOrUpdateTopics now (applyTopicListingUpsert now store t) rest
      rw [applyTopicListingUpsert_fixed now store _ t hfix]
      exact ih hrest (applyTopicListingUpsert now store t)

lemma batchTopics_createdAt_preserved (now : Int) :
    ∀ (ts : List TopicDict) (store : TopicStore) (i : Nat) (r : TopicRow), store i = some r →
      ∃ r', batchInsertOrUpdateTopics now store ts i = some r' ∧ r'.createdAt = r.createdAt := by
  intro ts
  induction ts with
  | nil => intro store i r h; exact ⟨r, h, rfl⟩
  | cons t rest ih =>
      intro store i r h
      by_cases hi : i = t.id
      · subst hi
        obtain ⟨r', hr', hc⟩ := ih (applyTopicListingUpsert now store t) t.id
          (mergeTopicListing now t (store t.id)) (applyTopicListingUpsert_at_id now store t)
        refine ⟨r', hr', ?_⟩
        rw [hc, h]
        exact mergeTopicListing_createdAt now t r
      · exact ih (applyTopicListingUpsert now store t) i r
          ((applyTopicListingUpsert_untouched now store t i hi).trans h)

lemma mergePost_self (p : PostDict) (o : Option PostRow) :
    mergePost p (some (mergePost p o)) = mergePost p o := by
  cases o <;> rfl

lemma mergePost_createdAt (p : PostDict) (r : PostRow) :
    (mergePost p (some r)).createdAt = r.createdAt := rfl

lemma applyPostUpsert_at_id (store : PostStore) (p : PostDict) :
    applyPostUpsert store p p.id = some (mergePost p (store p.id)) := by
  unfold applyPostUpsert
  simp only [sanitizePostData_id, eq_self_iff_true, if_true]

lemma applyPostUpsert_untouched (store : PostStore) (p : PostDict) (i : Nat)
    (h : i ≠ p.id) : applyPostUpsert store p i = store i := by
  unfold applyPostUpsert
  rw [if_neg]
  exact h

lemma batchInsertPosts_untouched :
    ∀ (ps : List PostDict) (store : PostStore) (i : Nat), (∀ p ∈ ps, p.id ≠ i) →
      batchInsertPosts store ps i = store i := by
  intro ps
  induction ps with
  | nil => intro store i _; rfl
  | cons p rest ih =>
      intro store i h
      show batchInsertPosts (applyPostUpsert store p) rest i = store i
      rw [ih (applyPostUpsert store p) i (fun p' hp' => h p' (List.mem_cons_of_mem p hp'))]
      exact applyPostUpsert_untouched store p i
        (fun he => h p (List.mem_cons_self p rest) he.symm)

lemma applyPostUpsert_fixed (store store' : PostStore) (p : PostDict)
    (h : store' p.id = applyPostUpsert store p p.id) :
    applyPostUpsert store' p = store' := by
  funext i
  by_cases hi : i = p.id
  · subst hi
    rw [applyPostUpsert_at_id]
    rw [applyPostUpsert_at_id] at h
    rw [h, mergePost_self]
  · exact applyPostUpsert_untouched store' p i hi

lemma batchPosts_idem :
    ∀ (ps : List PostDict), (ps.map PostDict.id).Nodup →
      ∀ store, batchInsertPosts (batchInsertPosts store ps) ps = batchInsertPosts store ps := by
  intro ps
  induction ps with
  | nil => intro _ store; rfl
  | cons p rest ih =>
      intro h store
      have hmap : (p.id :: rest.map PostDict.id).Nodup := by simpa using h
      have hnotin : p.id ∉ rest.map PostDict.id := (List.nodup_cons.mp hmap).1
      have hrest := (List.nodup_cons.mp hmap).2
      have hne : ∀ p' ∈ rest, p'.id ≠ p.id := by
        intro p' hp' he
        exact hnotin (he ▸ List.mem_map.mpr ⟨p', hp', rfl⟩)
      have hfix : batchInsertPosts (applyPostUpsert store p) rest p.id =
          applyPostUpsert store p p.id :=
        batchInsertPosts_untouched rest (applyPostUpsert store p) p.id hne
      show batchInsertPosts
          (applyPostUpsert (batchInsertPosts (applyPostUpsert store p) rest) p) rest =
        batchInsertPosts (applyPostUpsert store p) rest
      rw [applyPostUpsert_fixed store _ p hfix]
      exact ih hrest (applyPostUpsert store p)

lemma batchPosts_createdAt_preserved :
    ∀ (ps : List PostDict) (store : PostStore) (i : Nat) (r : PostRow), store i = some r →
      ∃ r', batchInsertPosts store ps i = some r' ∧ r'.createdAt = r.createdAt := by
  intro ps
  induction ps with
  | nil => intro store i r h; exact ⟨r, h, rfl⟩
  | cons p rest ih =>
      intro store i r h
      by_cases hi : i = p.id
      · subst hi
        obtain ⟨r', hr', hc⟩ := ih (applyPostUpsert store p) p.id
          (mergePost p (store p.id)) (applyPostUpsert_at_id store p)
        refine ⟨r', hr', ?_⟩
        rw [hc, h]
        exact mergePost_createdAt p r
      · exact ih (applyPostUpsert store p) i r
          ((applyPostUpsert_untouched store p i hi).trans h)

lemma batchUsers_idem (now : Int) (us : List UserDict) (store : UserStore) :
    batchInsertUsers now (batchInsertUsers now store us) us = batchInsertUsers now store us :=
  batchInsertUsers_fixed now us _ (fun u hu => batchInsertUsers_present now us store u hu)

/-! ## C4: idempotent persistence with immutable fields -/

/-- C4: persisting the same users, topics (with distinct ids per batch)
or posts twice with identical data leaves the stores exactly as after
the first persist, and no upsert overwrites `users.first_seen_at`, a
topic's `created_at` or a post's `created_at` of an already stored
row. -/
theorem persistence_idempotent_and_immutable (now : Int)
    (su : UserStore) (st : TopicStore) (sp : PostStore)
    (us : List UserDict) (ts : List TopicDict) (ps : List PostDict)
    (hts : (ts.map TopicDict.id).Nodup) (hps : (ps.map PostDict.id).Nodup) :
    batchInsertUsers now (batchInsertUsers now su us) us = batchInsertUsers now su us ∧
    batchInsertOrUpdateTopics now (batchInsertOrUpdateTopics now st ts) ts =
      batchInsertOrUpdateTopics now st ts ∧
    batchInsertPosts (batchInsertPosts sp ps) ps = batchInsertPosts sp ps ∧
    (∀ i r, su i = some r →
      (batchInsertUsers now su us i).map UserRow.firstSeenAt = some r.firstSeenAt) ∧
    (∀ i r, st i = some r →
      (batchInsertOrUpdateTopics now st ts i).map TopicRow.createdAt = some r.createdAt) ∧
    (∀ i r, sp i = some r →
      (batchInsertPosts sp ps i).map PostRow.createdAt = some r.createdAt) := by
  refine ⟨batchUsers_idem now us su, batchTopics_idem now ts hts st, batchPosts_idem ps hps sp,
    ?_, ?_, ?_⟩
  · intro i r h
    rw [batchInsertUsers_preserves now us su i r h]
    rfl
  · intro i r h
    obtain ⟨r', hr', hc⟩ := batchTopics_createdAt_preserved now ts st i r h
    rw [hr', Option.map_some', hc]
  · intro i r h
    obtain ⟨r', hr', hc⟩ := batchPosts_createdAt_preserved ps sp i r h
    rw [hr', Option.map_some', hc]

def samplePost : PostDict :=
  { id := 11, topicId := 1, userId := some 1, postNumber := 1, replyToPostNumber := none,
    contentRaw := ['o', 'k', '!'], likeCount := 2, createdAt := 5 }

theorem persistence_idempotent_witness :
    batchInsertUsers 0 (batchInsertUsers 0 emptyUserStore [userFirstSighting])
        [userFirstSighting] =
      batchInsertUsers 0 emptyUserStore [userFirstSighting] ∧
    batchInsertOrUpdateTopics 0 (batchInsertOrUpdateTopics 0 emptyTopicStore [sampleNewTopic])
        [sampleNewTopic] =
      batchInsertOrUpdateTopics 0 emptyTopicStore [sampleNewTopic] ∧
    batchInsertPosts (batchInsertPosts emptyPostStore [samplePost]) [samplePost] =
      batchInsertPosts emptyPostStore [samplePost] ∧
    (∀ i r, emptyUserStore i = some r →
      (batchInsertUsers 0 emptyUserStore [userFirstSighting] i).map UserRow.firstSeenAt =
        some r.firstSeenAt) ∧
    (∀ i r, emptyTopicStore i = some r →
      (batchInsertOrUpdateTopics 0 emptyTopicStore [sampleNewTopic] i).map TopicRow.createdAt =
        some r.createdAt) ∧
    (∀ i r, emptyPostStore i = some r →
      (batchInsertPosts emptyPostStore [samplePost] i).map PostRow.createdAt =
        some r.createdAt) :=
  persistence_idempotent_and_immutable 0 emptyUserStore emptyTopicStore emptyPostStore
    [userFirstSighting] [sampleNewTopic] [samplePost] (by simp) (by simp)

/-! ## C6: the listing batch upsert refreshes every harvested topic -/

lemma mergeTopicListing_title (now : Int) (t : TopicDict) (o : Option TopicRow) :
    (mergeTopicListing now t o).title = (sanitizeTopicData t).title := by
  cases o <;> rfl

lemma mergeTopicListing_category (now : Int) (t : TopicDict) (o : Option TopicRow) :
    (mergeTopicListing now t o).category = (sanitizeTopicData t).category := by
  cases o <;> rfl

lemma mergeTopicListing_replyCount (now : Int) (t : TopicDict) (o : Option TopicRow) :
    (mergeTopicListing now t o).replyCount = (sanitizeTopicData t).replyCount := by
  cases o <;> rfl

lemma mergeTopicListing_viewCount (now : Int) (t : TopicDict) (o : Option TopicRow) :
    (mergeTopicListing now t o).viewCount = (sanitizeTopicData t).viewCount := by
  cases o <;> rfl

lemma mergeTopicListing_tags (now : Int) (t : TopicDict) (o : Option TopicRow) :
    (mergeTopicListing now t o).tags = (sanitizeTopicData t).tags := by
  cases o <;> rfl

lemma mergeTopicListing_crawledAt (now : Int) (t : TopicDict) (o : Option TopicRow) :
    (mergeTopicListing now t o).crawledAt = (sanitizeTopicData t).crawledAt.getD now := by
  cases o <;> rfl

/-- C6: after `crawl_all_topic_lists` processes a harvest with distinct
topic ids, every harvested topic's listing-level metadata — title,
category, reply_count, view_count, last_activity_at, tags, crawled_at —
is present in storage with the freshly harvested (sanitized) values,
independently of the detail-crawl selection; in particular a topic
excluded by the change detector still has its view_count and
reply_count refreshed. -/
theorem listing_batch_refreshes_all_metadata (now : Int) (store : TopicStore)
    (harvest : List TopicDict) (t : TopicDict) (ht : t ∈ harvest)
    (hnodup : (harvest.map TopicDict.id).Nodup) :
    ∃ r', (crawlAllTopicLists now store harvest).2 t.id = some r' ∧
      r'.title = (sanitizeTopicData t).title ∧
      r'.category = (sanitizeTopicData t).category ∧
      r'.replyCount = (sanitizeTopicData t).replyCount ∧
      r'.viewCount = (sanitizeTopicData t).viewCount ∧
      r'.lastActivityAt = t.lastActivityAt ∧
      r'.tags = (sanitizeTopicData t).tags ∧
      r'.crawledAt = (sanitizeTopicData t).crawledAt.getD now := by
  obtain ⟨l1, l2, rfl⟩ := List.append_of_mem ht
  have hnodup' : (l1.map TopicDict.id ++ t.id :: l2.map TopicDict.id).Nodup := by
    simpa using hnodup
  have hne2 : ∀ t' ∈ l2, t'.id ≠ t.id := by
    intro t' ht' he
    have h2 : (t.id :: l2.map TopicDict.id).Nodup := (List.nodup_append.mp hnodup').2.1
    exact (List.nodup_cons.mp h2).1 (he ▸ List.mem_map.mpr ⟨t', ht', rfl⟩)
  have hsplit : (crawlAllTopicLists now store (l1 ++ t :: l2)).2 t.id =
      batchInsertOrUpdateTopics now
        (applyTopicListingUpsert now (batchInsertOrUpdateTopics now store l1) t) l2 t.id := by
    show batchInsertOrUpdateTopics now store (l1 ++ t :: l2) t.id = _
    unfold batchInsertOrUpdateTopics
    rw [List.foldl_append]
    rfl
  rw [hsplit,
    batchInsertOrUpdateTopics_untouched now l2 _ t.id hne2,
    applyTopicListingUpsert_at_id]
  exact ⟨_, rfl, mergeTopicListing_title now t _, mergeTopicListing_category now t _,
    mergeTopicListing_replyCount now t _, mergeTopicListing_viewCount now t _,
    mergeTopicListing_lastActivityAt now t _, mergeTopicListing_tags now t _,
    mergeTopicListing_crawledAt now t _⟩

theorem listing_batch_refresh_witness :
    ∃ r', (crawlAllTopicLists 0 emptyTopicStore [sampleNewTopic]).2 sampleNewTopic.id = some r' ∧
      r'.title = (sanitizeTopicData sampleNewTopic).title ∧
      r'.category = (sanitizeTopicData sampleNewTopic).category ∧
      r'.replyCount = (sanitizeTopicData sampleNewTopic).replyCount ∧
      r'.viewCount = (sanitizeTopicData sampleNewTopic).viewCount ∧
      r'.lastActivityAt = sampleNewTopic.lastActivityAt ∧
      r'.tags = (sanitizeTopicData sampleNewTopic).tags ∧
      r'.crawledAt = (sanitizeTopicData sampleNewTopic).crawledAt.getD 0 :=
  listing_batch_refreshes_all_metadata 0 emptyTopicStore [sampleNewTopic] sampleNewTopic
    (List.mem_singleton.mpr rfl) (by simp)

/-! ## C3: the hotness formula and its bounds -/

/-- C3: for any stored topic with non-negative counts and non-negative
elapsed hours, `update_hotness_scores` (with the analyzer's default
weights 1.0 / 5.0 / 3.0, decay window 168h, cap 999999.0) stores
exactly `min(max_cap, max(0.1, (view*1 + reply*5 + like*3) *
max(0.1, 1 - hours/168)))`, and that stored score lies in
`[0.1, 999999]` inclusive. -/
theorem hotness_score_formula_and_bounds (nowH : Int) (store : TopicStore)
    (i : Nat) (r : TopicRow) (hr : store i = some r)
    (hv : 0 ≤ r.viewCount) (hrep : 0 ≤ r.replyCount) (hl : 0 ≤ r.totalLikeCount)
    (hh : 0 ≤ nowH - r.lastActivityAt) :
    ∃ r', updateHotnessScores nowH store i = some r' ∧
      r'.hotnessScore =
        min 999999 (max (1 / 10)
          (((r.viewCount : ℚ) * 1 + (r.replyCount : ℚ) * 5 + (r.totalLikeCount : ℚ) * 3) *
            max (1 / 10) (1 - ((nowH - r.lastActivityAt : Int) : ℚ) / 168))) ∧
      (1 / 10 : ℚ) ≤ r'.hotnessScore ∧ r'.hotnessScore ≤ 999999 := by
  have hu : updateHotnessScores nowH store i =
      some { r with
        hotnessScore :=
          hotnessScore defaultViewWeight defaultReplyWeight defaultLikeWeight
            defaultTimeDecayHours defaultMaxScore
            (r.viewCount : ℚ) (r.replyCount : ℚ) (r.totalLikeCount : ℚ)
            ((nowH - r.lastActivityAt : Int) : ℚ) } := by
    unfold updateHotnessScores
    rw [hr]
    rfl
  refine ⟨_, hu, rfl, ?_, ?_⟩
  · exact le_min (by norm_num [defaultMaxScore]) (le_max_left _ _)
  · exact min_le_left _ _

def sampleHotRow : TopicRow :=
  { title := ['t'], url := ['u'], category := ['c'], authorId := none, replyCount := 2,
    viewCount := 10, createdAt := 0, lastActivityAt := 0, tags := [], totalLikeCount := 3,
    hotnessScore := 0, crawledAt := 0 }

def sampleHotStore : TopicStore := fun i => if i = 7 then some sampleHotRow else none

theorem hotness_score_witness :
    ∃ r', updateHotnessScores 24 sampleHotStore 7 = some r' ∧
      r'.hotnessScore =
        min 999999 (max (1 / 10)
          (((sampleHotRow.viewCount : ℚ) * 1 + (sampleHotRow.replyCount : ℚ) * 5 +
              (sampleHotRow.totalLikeCount : ℚ) * 3) *
            max (1 / 10) (1 - ((24 - sampleHotRow.lastActivityAt : Int) : ℚ) / 168))) ∧
      (1 / 10 : ℚ) ≤ r'.hotnessScore ∧ r'.hotnessScore ≤ 999999 :=
  hotness_score_formula_and_bounds 24 sampleHotStore 7 sampleHotRow rfl
    (by decide) (by decide) (by decide) (by decide)

/-! ## C8: detail-crawl pagination -/

/-- C8: when the first detail page's post stream is non-empty and
shorter than the reported `posts_count`, the detail crawler fetches
exactly `ceil(posts_count / first_page_size) - 1` additional pages,
namely pages 2 through `ceil(posts_count / first_page_size)`; the last
two conjuncts certify that `totalPagesFor` is that ceiling. -/
theorem detail_pagination_page_count (n per : Nat) (h0 : 0 < per) (hlt : per < n) :
    (additionalPagesToFetch n per).length = totalPagesFor n per - 1 ∧
    (∀ p, p ∈ additionalPagesToFetch n per ↔ 2 ≤ p ∧ p ≤ totalPagesFor n per) ∧
    n ≤ totalPagesFor n per * per ∧
    (totalPagesFor n per - 1) * per < n := by
  have hcond : per ≠ 0 ∧ per < n := ⟨Nat.pos_iff_ne_zero.mp h0, hlt⟩
  have key : n ≤ per * totalPagesFor n per ∧ per * totalPagesFor n per - per < n := by
    have hdm : per * totalPagesFor n per + (n + per - 1) % per = n + per - 1 :=
      Nat.div_add_mod (n + per - 1) per
    have hmod : (n + per - 1) % per < per := Nat.mod_lt _ h0
    generalize hP : per * totalPagesFor n per = P at hdm ⊢
    generalize hM : (n + per - 1) % per = M at hdm hmod
    omega
  have hq1 : 1 ≤ totalPagesFor n per := by
    by_contra hcon
    have h00 : totalPagesFor n per = 0 := by omega
    rw [h00, Nat.mul_zero] at key
    omega
  refine ⟨?_, ?_, ?_, ?_⟩
  · unfold additionalPagesToFetch
    rw [if_pos hcond]
    exact List.length_range' _ _ _
  · intro p
    unfold additionalPagesToFetch
    rw [if_pos hcond, List.mem_range'_1]
    constructor
    · rintro ⟨h2, hlt'⟩
      exact ⟨h2, by omega⟩
    · rintro ⟨h2, hle'⟩
      exact ⟨h2, by omega⟩
  · rw [Nat.mul_comm]
    exact key.1
  · rw [Nat.sub_mul, one_mul, Nat.mul_comm]
    exact key.2

theorem detail_pagination_witness :
    (additionalPagesToFetch 45 20).length = totalPagesFor 45 20 - 1 ∧
    45 ≤ totalPagesFor 45 20 * 20 ∧
    (totalPagesFor 45 20 - 1) * 20 < 45 ∧
    (additionalPagesToFetch 45 20).length = 2 ∧
    additionalPagesToFetch 45 20 = [2, 3] :=
  ⟨(detail_pagination_page_count 45 20 (by decide) (by decide)).1,
    (detail_pagination_page_count 45 20 (by decide) (by decide)).2.2.1,
    (detail_pagination_page_count 45 20 (by decide) (by decide)).2.2.2,
    by decide, by decide⟩

/-! ## C9: the content filter -/

lemma length_dropWhile_le (p : Char → Bool) (l : List Char) :
    (l.dropWhile p).length ≤ l.length := by
  induction l with
  | nil => simp
  | cons x xs ih =>
      by_cases h : p x
      · simp only [List.dropWhile_cons, h, if_true]
        exact le_trans ih (by simp)
      · simp [List.dropWhile_cons, h]

lemma pythonStrip_length_le (s : List Char) : (pythonStrip s).length ≤ s.length := by
  unfold pythonStrip
  calc ((s.dropWhile Char.isWhitespace).reverse.dropWhile Char.isWhitespace).reverse.length
      = ((s.dropWhile Char.isWhitespace).reverse.dropWhile Char.isWhitespace).length :=
        List.length_reverse _
    _ ≤ (s.dropWhile Char.isWhitespace).reverse.length :=
        length_dropWhile_le Char.isWhitespace _
    _ = (s.dropWhile Char.isWhitespace).length := List.length_reverse _
    _ ≤ s.length := length_dropWhile_le Char.isWhitespace s

/-- C9: the content filter `_is_meaningful_post` (at its default
minimum length 15) rejects `"mark"`, `"+1"`, every 5-character string
and every string whose stripped form is empty (empty or
whitespace-only), and accepts every 30-character string whose stripped
form meets the minimum length and whose normalized (lowercased,
stripped) form is not in the boilerplate denylist. -/
theorem content_filter_cases :
    isMeaningfulPost defaultMinLength ("mark".toList) = false ∧
    isMeaningfulPost defaultMinLength ("+1".toList) = false ∧
    (∀ s : List Char, s.length = 5 → isMeaningfulPost defaultMinLength s = false) ∧
    (∀ s : List Char, pythonStrip s = [] → isMeaningfulPost defaultMinLength s = false) ∧
    (∀ s : List Char, s.length = 30 → defaultMinLength ≤ (pythonStrip s).length →
      toLowerList (pythonStrip s) ∉ meaninglessPhrases →
      isMeaningfulPost defaultMinLength s = true) := by
  refine ⟨by decide, by decide, ?_, ?_, ?_⟩
  · intro s h5
    unfold isMeaningfulPost
    by_cases he : (pythonStrip s).isEmpty
    · rw [if_pos he]
    · rw [if_neg he]
      have hlen : (pythonStrip s).length < defaultMinLength := by
        have hle := pythonStrip_length_le s
        rw [h5] at hle
        unfold defaultMinLength
        omega
      rw [if_pos hlen]
  · intro s hstrip
    unfold isMeaningfulPost
    rw [if_pos (List.isEmpty_iff.mpr hstrip)]
  · intro s _ hlen hnot
    unfold isMeaningfulPost
    have hne : ¬(pythonStrip s).isEmpty = true := by
      rw [List.isEmpty_iff]
      intro hnil
      rw [hnil] at hlen
      simp [defaultMinLength] at hlen
    have hany : ¬meaninglessPhrases.any
        (fun phrase => phrase = toLowerList (pythonStrip s)) = true := by
      rw [List.any_eq_true]
      rintro ⟨ph, hmem, hph⟩
      exact hnot (of_decide_eq_true hph ▸ hmem)
    rw [if_neg hne, if_neg (not_lt.mpr hlen), if_neg hany]

def substantiveSentence : List Char := "This topic deserves attention.".toList

theorem content_filter_witness :
    substantiveSentence.length = 30 ∧
    defaultMinLength ≤ (pythonStrip substantiveSentence).length ∧
    isMeaningfulPost defaultMinLength substantiveSentence = true :=
  ⟨by decide, by decide,
    content_filter_cases.2.2.2.2 substantiveSentence (by decide) (by decide) (by decide)⟩

/-! ## C10: totality and case behavior of `_parse_datetime` -/

lemma replaceChar_trailing (c : Char) (rep : List Char) :
    ∀ t : List Char, c ∉ t → replaceChar c rep (t ++ [c]) = t ++ rep := by
  intro t
  induction t with
  | nil =>
      intro _
      simp [replaceChar]
  | cons x xs ih =>
      intro hx
      have hxc : ¬x = c := fun he => hx (he ▸ List.mem_cons_self x xs)
      have hxs : c ∉ xs := fun hm => hx (List.mem_cons_of_mem x hm)
      show (if x = c then rep ++ replaceChar c rep (xs ++ [c])
          else x :: replaceChar c rep (xs ++ [c])) = x :: xs ++ rep
      rw [if_neg hxc, ih hxs]
      rfl

/-- C10: `_parse_datetime` is total over the abstract fallible ISO
parser: it always returns either the parsed datetime or the current UTC
time and never propagates an error; a string containing `'T'` is handed
to the ISO parser with every `'Z'` (in particular a trailing one)
replaced by `'+00:00'`; a string without `'T'`, and any string on which
the ISO parser fails, yields the current UTC time. -/
theorem parse_datetime_total (DT : Type) (fromIso : List Char → Except (List Char) DT)
    (nowUTC : DT) (s : List Char) :
    (parseDatetime fromIso nowUTC s = nowUTC ∨
      ∃ d, fromIso (replaceChar 'Z' utcOffsetSuffix s) = Except.ok d ∧
        parseDatetime fromIso nowUTC s = d) ∧
    ('T' ∉ s → parseDatetime fromIso nowUTC s = nowUTC) ∧
    (∀ e, fromIso (replaceChar 'Z' utcOffsetSuffix s) = Except.error e →
      parseDatetime fromIso nowUTC s = nowUTC) ∧
    (∀ d, 'T' ∈ s → fromIso (replaceChar 'Z' utcOffsetSuffix s) = Except.ok d →
      parseDatetime fromIso nowUTC s = d) ∧
    (∀ t : List Char, 'Z' ∉ t →
      replaceChar 'Z' utcOffsetSuffix (t ++ ['Z']) = t ++ utcOffsetSuffix) := by
  refine ⟨?_, ?_, ?_, ?_, fun t ht => replaceChar_trailing 'Z' utcOffsetSuffix t ht⟩
  · unfold parseDatetime
    by_cases hT : 'T' ∈ s
    · rw [if_pos hT]
      cases hfi : fromIso (replaceChar 'Z' utcOffsetSuffix s) with
      | ok d => exact Or.inr ⟨d, rfl, rfl⟩
      | error e => exact Or.inl rfl
    · rw [if_neg hT]
      exact Or.inl rfl
  · intro hT
    unfold parseDatetime
    rw [if_neg hT]
  · intro e hfi
    unfold parseDatetime
    by_cases hT : 'T' ∈ s
    · rw [if_pos hT, hfi]
    · rw [if_neg hT]
  · intro d hT hfi
    unfold parseDatetime
    rw [if_pos hT, hfi]

def fromIsoStub : List Char → Except (List Char) Int := fun _ => Except.error []

theorem parse_datetime_total_witness :
    parseDatetime fromIsoStub 0 ("nodate".toList) = 0 :=
  (parse_datetime_total Int fromIsoStub 0 ("nodate".toList)).2.1 (by decide)

/-! ## C7: smart truncation of over-long post content -/

lemma mem_of_getLastQ {α : Type} {l : List α} {x : α} (h : l.getLast? = some x) : x ∈ l := by
  cases l with
  | nil => simp at h
  | cons a as =>
      rw [List.getLast?_eq_getLast _ (by simp)] at h
      cases h
      exact List.getLast_mem _

/-- A found `rfind` index is an actual occurrence. -/
lemma rfindList_some (p s : List Char) (i : Nat) (h : rfindList p s = some i) :
    occursAt p s i = true := by
  unfold rfindList at h
  exact (List.mem_filter.mp (mem_of_getLastQ h)).2

lemma isPrefixOf_take_eq : ∀ p q : List Char, p.isPrefixOf q = true → q.take p.length = p := by
  intro p
  induction p with
  | nil => intro q _; rfl
  | cons a as ih =>
      intro q h
      cases q with
      | nil => simp [List.isPrefixOf] at h
      | cons b bs =>
          simp only [List.isPrefixOf, Bool.and_eq_true, beq_iff_eq] at h
          obtain ⟨hab, hpre⟩ := h
          show b :: bs.take as.length = a :: as
          rw [hab, ih bs hpre]

lemma isPrefixOf_length_le (p q : List Char) (h : p.isPrefixOf q = true) :
    p.length ≤ q.length := by
  have ht := isPrefixOf_take_eq p q h
  calc p.length = (q.take p.length).length := by rw [ht]
    _ ≤ q.length := by rw [List.length_take]; exact min_le_right _ _

lemma occursAt_cons_lt (hd : Char) (tl s : List Char) (i : Nat)
    (h : occursAt (hd :: tl) s i = true) : i < s.length := by
  unfold occursAt at h
  by_contra hge
  push_neg at hge
  rw [List.drop_eq_nil_of_le hge] at h
  simp [List.isPrefixOf] at h

lemma occursAt_cons_add_le (hd : Char) (tl s : List Char) (i : Nat)
    (h : occursAt (hd :: tl) s i = true) : i + (hd :: tl).length ≤ s.length := by
  have hlt := occursAt_cons_lt hd tl s i h
  unfold occursAt at h
  have hle := isPrefixOf_length_le _ _ h
  rw [List.length_drop] at hle
  omega

/-- An occurrence at `i` splits `take (i + |p|)` into `take i ++ p`. -/
lemma take_of_occursAt (p s : List Char) (i : Nat) (h : occursAt p s i = true) :
    s.take (i + p.length) = s.take i ++ p := by
  unfold occursAt at h
  rw [List.take_add]
  congr 1
  exact isPrefixOf_take_eq p (s.drop i) h

/-- A pattern whose head differs from `c` never occurs in
`replicate n c`. -/
lemma rfindList_replicate_none (hd : Char) (tl : List Char) (c : Char) (n : Nat)
    (hc : hd ≠ c) : rfindList (hd :: tl) (List.replicate n c) = none := by
  unfold rfindList
  rw [List.getLast?_eq_none_iff, List.filter_eq_nil_iff]
  intro i _
  unfold occursAt
  rw [List.drop_replicate]
  cases hnk : n - i with
  | zero => simp [List.isPrefixOf]
  | succ k =>
      simp [List.replicate_succ, List.isPrefixOf, Bool.and_eq_true, beq_iff_eq, hc]

lemma findCut_none (mc : Nat) (tr : List Char) :
    ∀ ds : List (List Char), (∀ d ∈ ds, rfindList d tr = none) →
      findCut mc tr ds = none := by
  intro ds
  induction ds with
  | nil => intro _; rfl
  | cons d ds ih =>
      intro h
      unfold findCut
      rw [h d (List.mem_cons_self d ds)]
      exact ih (fun d' hd' => h d' (List.mem_cons_of_mem d hd'))

lemma findCut_spec (mc : Nat) (tr : List Char) :
    ∀ (ds : List (List Char)) (res : List Char), findCut mc tr ds = some res →
      ∃ d ∈ ds, ∃ i, rfindList d tr = some i ∧ beyondEightyPercent mc i ∧
        res = tr.take (i + d.length) := by
  intro ds
  induction ds with
  | nil => intro res h; exact absurd h (by simp [findCut])
  | cons d ds ih =>
      intro res h
      unfold findCut at h
      cases hrf : rfindList d tr with
      | some i =>
          simp only [hrf] at h
          by_cases hb : beyondEightyPercent mc i
          · rw [if_pos hb] at h
            cases h
            exact ⟨d, List.mem_cons_self d ds, i, hrf, hb, rfl⟩
          · rw [if_neg hb] at h
            obtain ⟨d', hd', i', h1, h2, h3⟩ := ih res h
            exact ⟨d', List.mem_cons_of_mem d hd', i', h1, h2, h3⟩
      | none =>
          simp only [hrf] at h
          obtain ⟨d', hd', i', h1, h2, h3⟩ := ih res h
          exact ⟨d', List.mem_cons_of_mem d hd', i', h1, h2, h3⟩

lemma smartTruncate_replicate (n : Nat) :
    smartTruncate contentMaxChars (List.replicate n 'a') =
      List.replicate (min contentMaxChars n) 'a' := by
  have hall : ∀ d ∈ sentenceDelimiters,
      rfindList d (List.replicate (min contentMaxChars n) 'a') = none := by
    intro d hd
    simp only [sentenceDelimiters, List.mem_cons, List.not_mem_nil, or_false] at hd
    rcases hd with rfl | rfl | rfl | rfl | rfl | rfl | rfl | rfl <;>
      exact rfindList_replicate_none _ _ 'a' _ (by decide)
  simp only [smartTruncate]
  rw [List.take_replicate, findCut_none contentMaxChars _ sentenceDelimiters hall,
    rfindList_replicate_none ' ' [] 'a' _ (by decide)]

lemma sanitizeContent_replicate_long (n : Nat) (h : contentMaxChars < n) :
    sanitizeContent (List.replicate n 'a') =
      List.replicate contentMaxChars 'a' ++ truncationMarker n := by
  unfold sanitizeContent
  simp only [List.length_replicate]
  rw [if_pos h, smartTruncate_replicate, Nat.min_eq_left (le_of_lt h)]

/-- The boundary-truncation reading of the spec sentence, modelled from
the spec's words for refutation: every over-long content is stored as a
prefix that ends at one of the sentence/paragraph delimiters, with the
truncation marker appended. -/
def specClaimBoundaryTruncation : Prop :=
  ∀ content : List Char, contentMaxChars < content.length →
    ∃ d ∈ sentenceDelimiters, ∃ pre : List Char,
      sanitizeContent content = (pre ++ d) ++ truncationMarker content.length

/-- C7 counterexample: 25000 copies of `'a'` contain no sentence or
paragraph delimiter at all, so `_sanitize_post_data` keeps the raw
20000-character prefix (which ends in `'a'`, not at a boundary) and the
universal boundary-truncation claim is false. -/
theorem boundary_truncation_claim_false : ¬specClaimBoundaryTruncation := by
  intro hclaim
  obtain ⟨d, hd, pre, heq⟩ := hclaim (List.replicate 25000 'a')
    (by rw [List.length_replicate]; decide)
  rw [sanitizeContent_replicate_long 25000 (by decide), List.length_replicate] at heq
  have hpd : List.replicate contentMaxChars 'a' = pre ++ d :=
    List.append_cancel_right heq
  have hda : ∀ d' ∈ sentenceDelimiters, ∃ c ∈ d', c ≠ 'a' := by decide
  obtain ⟨c, hc, hca⟩ := hda d hd
  have hmem : c ∈ List.replicate contentMaxChars 'a' := by
    rw [hpd]
    exact List.mem_append_right pre hc
  exact hca (List.eq_of_mem_replicate hmem)

/-- The fallback case of the amended statement: when the smart cut kept
the raw `contentMaxChars`-character prefix. -/
lemma smart_trunc_fallback (content : List Char) (h : contentMaxChars < content.length)
    (hsm : smartTruncate contentMaxChars content = content.take contentMaxChars) :
    ∃ t rest, smartTruncate contentMaxChars content ++ truncationMarker content.length =
        t ++ truncationMarker content.length ∧
      t ++ rest = content.take contentMaxChars ∧
      beyondEightyPercent contentMaxChars t.length ∧
      t.length ≤ contentMaxChars ∧
      ((∃ d ∈ sentenceDelimiters, ∃ pre, t = pre ++ d) ∨
        (∃ rest2, t ++ ' ' :: rest2 = content.take contentMaxChars) ∨
        t = content.take contentMaxChars) := by
  have htrlen : (content.take contentMaxChars).length = contentMaxChars := by
    rw [List.length_take]
    exact Nat.min_eq_left (le_of_lt h)
  refine ⟨content.take contentMaxChars, [], by rw [hsm], by simp, ?_, le_of_eq htrlen,
    Or.inr (Or.inr rfl)⟩
  rw [htrlen]
  norm_num [beyondEightyPercent, contentMaxChars]

/-- C7 (amended): content at or below the 20000-character limit is
stored unchanged; longer content is stored as a prefix `t` of its first
20000 characters followed by the truncation marker noting the original
character length, where `t` keeps more than 80% of the limit window and
either ends at a sentence/paragraph delimiter, or is cut immediately
before a space, or — when neither occurs beyond the 80% threshold — is
exactly the raw 20000-character prefix. -/
theorem sanitize_content_smart_truncation (content : List Char) :
    (content.length ≤ contentMaxChars → sanitizeContent content = content) ∧
    (contentMaxChars < content.length →
      ∃ t rest, sanitizeContent content = t ++ truncationMarker content.length ∧
        t ++ rest = content.take contentMaxChars ∧
        beyondEightyPercent contentMaxChars t.length ∧
        t.length ≤ contentMaxChars ∧
        ((∃ d ∈ sentenceDelimiters, ∃ pre, t = pre ++ d) ∨
          (∃ rest2, t ++ ' ' :: rest2 = content.take contentMaxChars) ∨
          t = content.take contentMaxChars)) := by
  constructor
  · intro h
    unfold sanitizeContent
    rw [if_neg (not_lt.mpr h)]
  · intro h
    unfold sanitizeContent
    rw [if_pos h]
    have htrlen : (content.take contentMaxChars).length = contentMaxChars := by
      rw [List.length_take]
      exact Nat.min_eq_left (le_of_lt h)
    cases hfc : findCut contentMaxChars (content.take contentMaxChars) sentenceDelimiters with
    | some tcut =>
        obtain ⟨d, hd, i, hrf, hb, rfl⟩ :=
          findCut_spec contentMaxChars (content.take contentMaxChars) sentenceDelimiters tcut hfc
        have hocc := rfindList_some d (content.take contentMaxChars) i hrf
        cases d with
        | nil =>
            have : ∀ d' ∈ sentenceDelimiters, d' ≠ [] := by decide
            exact absurd rfl (this [] hd)
        | cons c0 d' =>
            have hlt : i < (content.take contentMaxChars).length :=
              occursAt_cons_lt c0 d' _ i hocc
            have hle2 : i + (c0 :: d').length ≤ (content.take contentMaxChars).length :=
              occursAt_cons_add_le c0 d' _ i hocc
            have htake := take_of_occursAt (c0 :: d') (content.take contentMaxChars) i hocc
            have hsm : smartTruncate contentMaxChars content =
                (content.take contentMaxChars).take (i + (c0 :: d').length) := by
              simp only [smartTruncate]
              rw [hfc]
            have hlen : ((content.take contentMaxChars).take i ++ (c0 :: d')).length =
                i + (c0 :: d').length := by
              rw [List.length_append, List.length_take, Nat.min_eq_left (le_of_lt hlt)]
            refine ⟨(content.take contentMaxChars).take i ++ (c0 :: d'),
              (content.take contentMaxChars).drop (i + (c0 :: d').length), ?_, ?_, ?_, ?_,
              Or.inl ⟨c0 :: d', hd, (content.take contentMaxChars).take i, rfl⟩⟩
            · rw [hsm, htake]
            · rw [← htake]
              exact List.take_append_drop _ _
            · rw [hlen]
              unfold beyondEightyPercent at hb ⊢
              have hcast : (i : ℚ) ≤ ((i + (c0 :: d').length : Nat) : ℚ) := by
                exact_mod_cast Nat.le_add_right i (c0 :: d').length
              linarith
            · rw [hlen]
              calc i + (c0 :: d').length ≤ (content.take contentMaxChars).length := hle2
                _ = contentMaxChars := htrlen
    | none =>
        cases hsp : rfindList [' '] (content.take contentMaxChars) with
        | some i =>
            by_cases hb : beyondEightyPercent contentMaxChars i
            · have hocc := rfindList_some [' '] (content.take contentMaxChars) i hsp
              have hlt : i < (content.take contentMaxChars).length :=
                occursAt_cons_lt ' ' [] _ i hocc
              have htake1 := take_of_occursAt [' '] (content.take contentMaxChars) i hocc
              have hsm : smartTruncate contentMaxChars content =
                  (content.take contentMaxChars).take i := by
                simp only [smartTruncate, hfc, hsp]
                rw [if_pos hb]
              refine ⟨(content.take contentMaxChars).take i,
                (content.take contentMaxChars).drop i, by rw [hsm],
                List.take_append_drop _ _, ?_, ?_,
                Or.inr (Or.inl ⟨(content.take contentMaxChars).drop (i + 1), ?_⟩)⟩
              · rw [List.length_take, Nat.min_eq_left (le_of_lt hlt)]
                exact hb
              · rw [List.length_take, Nat.min_eq_left (le_of_lt hlt)]
                rw [htrlen] at hlt
                exact le_of_lt hlt
              · have hj : ((content.take contentMaxChars).take i ++ [' ']) ++
                    (content.take contentMaxChars).drop (i + 1) =
                    content.take contentMaxChars := by
                  rw [← htake1]
                  exact List.take_append_drop _ _
                simpa [List.append_assoc] using hj
            · have hsm : smartTruncate contentMaxChars content =
                  content.take contentMaxChars := by
                simp only [smartTruncate, hfc, hsp]
                rw [if_neg hb]
              exact smart_trunc_fallback content h hsm
        | none =>
            have hsm : smartTruncate contentMaxChars content =
                content.take contentMaxChars := by
              simp only [smartTruncate, hfc, hsp]
            exact smart_trunc_fallback content h hsm

theorem sanitize_content_smart_truncation_witness :
    contentMaxChars < (List.replicate 25000 'a').length ∧
    (∃ t rest, sanitizeContent (List.replicate 25000 'a') =
        t ++ truncationMarker (List.replicate 25000 'a').length ∧
      t ++ rest = (List.replicate 25000 'a').take contentMaxChars ∧
      beyondEightyPercent contentMaxChars t.length ∧
      t.length ≤ contentMaxChars ∧
      ((∃ d ∈ sentenceDelimiters, ∃ pre, t = pre ++ d) ∨
        (∃ rest2, t ++ ' ' :: rest2 = (List.replicate 25000 'a').take contentMaxChars) ∨
        t = (List.replicate 25000 'a').take contentMaxChars)) :=
  ⟨by rw [List.length_replicate]; decide,
    (sanitize_content_smart_truncation (List.replicate 25000 'a')).2
      (by rw [List.length_replicate]; decide)⟩
